import Mathlib

/-!
Verification of the `slug_intl` slugifier (`src/lib.rs`).

The Rust function `slugify` normalizes its input to NFC, then rewrites the
character stream left to right with one bit of carried state (`prev_hyphen`):
a Letter emits its full Unicode lowercase mapping, a Mark/Number/Symbol is
emitted unchanged, and Punctuation/Separator/Other collapses to a single
hyphen; finally trailing hyphens are trimmed.

Strings are modelled as `List Char` (Lean's `Char` is a Unicode scalar value,
matching Rust's `char`).  The external Unicode collaborators (the general
category classifier, the full lowercase mapping, and the NFC normalizer,
provided in the Rust code by the `finl_unicode` and `unicode_normalization`
crates) are modelled as a parameter structure `UnicodeData`; theorems take as
hypotheses exactly the facts of the real Unicode character database that they
need (for instance that a lowercase mapping is never empty and never contains
a hyphen, and that `'-'` has major category P).  A concrete instance
`asciiUnicode`, the faithful restriction of the Unicode database to the ASCII
range, is used for the concrete scenarios and for witnesses.
-/

/-- Unicode major (general) categories, as in `finl_unicode::categories::MajorCategory`:
Letter, Mark, Number, Punctuation, Symbol, Separator, Other/Control. -/
inductive MajorCategory where
  | L
  | M
  | N
  | P
  | S
  | Z
  | C
deriving DecidableEq, Repr

/-- The external Unicode collaborators used by `slugify` (spec section 6):
the major-category classifier (`char::get_major_category`), the full lowercase
mapping (`char::to_lowercase`, a sequence of scalar values), and the NFC
normalizer (`str::nfc()`). -/
structure UnicodeData where
  get_major_category : Char → MajorCategory
  to_lowercase : Char → List Char
  nfc : List Char → List Char

/-- The per-character rewrite closure of `slugify` (src/lib.rs lines 50-67).
Given the carried `prev_hyphen` flag it returns the emitted characters and the
new flag: a Letter emits its full lowercase mapping and clears the flag; a
Mark, Number or Symbol emits itself and clears the flag; Punctuation,
Separator or Other emits nothing when the flag is set, and otherwise emits a
single hyphen and sets the flag. -/
def process_char (u : UnicodeData) (c : Char) (prev_hyphen : Bool) :
    List Char × Bool :=
  match u.get_major_category c with
  | .L => (u.to_lowercase c, false)
  | .M | .N | .S => ([c], false)
  | .P | .Z | .C => if prev_hyphen then ([], true) else (['-'], true)

/-- The `flat_map` over the character stream (src/lib.rs lines 70-72) with the
mutable closure state made explicit: returns the concatenated emissions and
the final value of `prev_hyphen`. -/
def slugifyRun (u : UnicodeData) (prev_hyphen : Bool) :
    List Char → List Char × Bool
  | [] => ([], prev_hyphen)
  | c :: cs =>
    ((process_char u c prev_hyphen).1 ++
        (slugifyRun u (process_char u c prev_hyphen).2 cs).1,
      (slugifyRun u (process_char u c prev_hyphen).2 cs).2)

/-- Rust's `trim_end_matches("-")` (src/lib.rs line 73): remove every trailing
hyphen.  `List.rdropWhile` removes elements from the tail while the predicate
holds. -/
def trimEndHyphens (l : List Char) : List Char :=
  l.rdropWhile (· == '-')

/-- The embedded `slugify` (src/lib.rs lines 47-75): NFC-normalize, rewrite
the stream with `prev_hyphen` starting `true`, then trim trailing hyphens. -/
def slugify (u : UnicodeData) (s : List Char) : List Char :=
  trimEndHyphens (slugifyRun u true (u.nfc s)).1

/-- Modelled from the spec: the reference algorithm of spec section 4.1,
written as the explicit left fold that section 9 describes (the accumulated
output plus the one-bit state).  Step 2 of the algorithm: a Letter appends its
full lowercase mapping and clears `previous-was-hyphen`; a Mark, Number or
Symbol appends the character unchanged and clears the flag; a Punctuation,
Separator or Other character appends nothing when the flag is true and
otherwise appends a single hyphen and sets the flag. -/
def slugifySpecStep (u : UnicodeData) (acc : List Char × Bool) (c : Char) :
    List Char × Bool :=
  match u.get_major_category c with
  | .L => (acc.1 ++ u.to_lowercase c, false)
  | .M | .N | .S => (acc.1 ++ [c], false)
  | .P | .Z | .C => if acc.2 then acc else (acc.1 ++ ['-'], true)

/-- Modelled from the spec: the full reference definition of section 4.1 —
normalize to NFC, fold `slugifySpecStep` left to right over the normalized
characters with the flag starting `true`, then remove all trailing hyphens. -/
def slugifySpec (u : UnicodeData) (s : List Char) : List Char :=
  trimEndHyphens ((u.nfc s).foldl (slugifySpecStep u) ([], true)).1

/-- The Unicode general-category table restricted to the ASCII range:
letters are L, digits are N (Nd), the space is Z (Zs), the C0 controls and
DEL are C (Cc), the symbol characters (dollar, plus, the comparison signs,
circumflex, grave accent, vertical bar, tilde) are S, and the remaining
printable ASCII characters are P.  Characters outside the modelled ASCII
fragment are mapped to C (Other). -/
def asciiCategory (c : Char) : MajorCategory :=
  if ('a' ≤ c ∧ c ≤ 'z') ∨ ('A' ≤ c ∧ c ≤ 'Z') then .L
  else if '0' ≤ c ∧ c ≤ '9' then .N
  else if c = ' ' then .Z
  else if c.toNat < 32 ∨ c.toNat = 127 then .C
  else if c.toNat ∈ [36, 43, 60, 61, 62, 94, 96, 124, 126] then .S
  else if c.toNat < 127 then .P
  else .C

/-- The full lowercase mapping restricted to the ASCII range: an uppercase
basic Latin letter maps to the single corresponding lowercase letter, every
other character to itself. -/
def asciiToLower (c : Char) : List Char :=
  if 'A' ≤ c ∧ c ≤ 'Z' then [Char.ofNat (c.toNat + 32)] else [c]

/-- The ASCII fragment of the Unicode data: NFC is the identity on ASCII
text, so the normalizer of this instance is the identity. -/
def asciiUnicode : UnicodeData where
  get_major_category := asciiCategory
  to_lowercase := asciiToLower
  nfc := fun l => l

/-- The Unicode general-category table on the fragment relevant to the
idempotence counterexample: the combining caron U+030C is a Mark (Mn), the
small j-with-caron U+01F0 (ǰ) is a Letter, and the rest follows the ASCII
table. -/
def caronCategory (c : Char) : MajorCategory :=
  if c = '\u030C' then .M
  else if c = '\u01F0' then .L
  else asciiCategory c

/-- The full lowercase mapping on the same fragment: U+01F0 is already
lowercase and maps to itself (its uppercase mapping is the two-character
sequence J + U+030C; no precomposed uppercase exists), the rest follows the
ASCII mapping (the caron, not a letter, maps to itself). -/
def caronToLower (c : Char) : List Char :=
  if c = '\u01F0' then ['\u01F0'] else asciiToLower c

/-- NFC on strings over the fragment alphabet: the canonical composition
pair (j, U+030C) composes to U+01F0; J followed by U+030C has no primary
composite and stays decomposed; every other character passes through.  This
is the real normalizer's behavior on this alphabet. -/
def caronNfc : List Char → List Char
  | [] => []
  | 'j' :: '\u030C' :: rest => '\u01F0' :: caronNfc rest
  | c :: rest => c :: caronNfc rest

/-- The fragment of the Unicode data exhibiting the asymmetry behind the
idempotence failure: j + caron composes under NFC, J + caron does not. -/
def caronUnicode : UnicodeData where
  get_major_category := caronCategory
  to_lowercase := caronToLower
  nfc := caronNfc

/-- Facts of the Unicode character database about one character that the
boundary and collapsing properties rely on: the full lowercase mapping of a
letter never contains a hyphen and is never empty (Rust's
`char::to_lowercase` always yields at least one character).  Only letters
are constrained, because `process_char` consults the lowercase mapping for
category L alone. -/
abbrev goodChar (u : UnicodeData) (c : Char) : Prop :=
  u.get_major_category c = .L →
    '-' ∉ u.to_lowercase c ∧ u.to_lowercase c ≠ []

/-- The binary relation on adjacent output characters: not both hyphens. -/
def notBothHyphens (a b : Char) : Prop := a = '-' → b ≠ '-'

/-- Modelled from the spec: the options structure of the repository's second,
near-duplicate implementation (the configuration wrapper), which is not under
src/.  Spec sections 3 and 6: two declared bounds on the desired output
length, `minimum_length` defaulting to 3 and `maximum_length` defaulting to
30, currently unconsumed by the transformation. -/
structure SlugOptions where
  minimum_length : Nat := 3
  maximum_length : Nat := 30

/-- Modelled from the spec: the variant entry point
`slugify_with_options(text, options)` of the second implementation, not under
src/.  Spec section 4.1: the options argument is currently a no-op
pass-through, so the function returns `slugify` of the text. -/
def slugify_with_options (u : UnicodeData) (text : List Char)
    (_options : SlugOptions) : List Char :=
  slugify u text

/-- Rust's `char::to_uppercase` restricted to the basic Latin letters: a
lowercase ASCII letter maps to its single uppercase counterpart, any other
character to itself; uppercasing a basic-Latin string is the character-wise
map of this function. -/
def latinUpper (c : Char) : Char :=
  if 'a' ≤ c ∧ c ≤ 'z' then Char.ofNat (c.toNat - 32) else c

/-- A basic Latin letter (ASCII a-z or A-Z). -/
abbrev basicLatinLetter (c : Char) : Prop :=
  ('a' ≤ c ∧ c ≤ 'z') ∨ ('A' ≤ c ∧ c ≤ 'Z')

/-- A character that the rewrite reproduces unchanged: either the hyphen, or
a character that is not Punctuation, Separator or Other and, when a Letter,
is a fixed point of the full lowercase mapping.  Every character that
`slugify` can emit is of this shape. -/
abbrev fixedOut (u : UnicodeData) (d : Char) : Prop :=
  d = '-' ∨ (u.get_major_category d ≠ .P ∧ u.get_major_category d ≠ .Z ∧
    u.get_major_category d ≠ .C ∧
    (u.get_major_category d = .L → u.to_lowercase d = [d]))

theorem slugifyRun_nil (u : UnicodeData) (prev : Bool) :
    slugifyRun u prev [] = ([], prev) := rfl

theorem slugifyRun_cons (u : UnicodeData) (prev : Bool) (c : Char)
    (cs : List Char) :
    slugifyRun u prev (c :: cs) =
      ((process_char u c prev).1 ++
          (slugifyRun u (process_char u c prev).2 cs).1,
        (slugifyRun u (process_char u c prev).2 cs).2) := rfl

theorem process_char_L (u : UnicodeData) (c : Char) (prev : Bool)
    (h : u.get_major_category c = .L) :
    process_char u c prev = (u.to_lowercase c, false) := by
  simp [process_char, h]

theorem process_char_M (u : UnicodeData) (c : Char) (prev : Bool)
    (h : u.get_major_category c = .M) :
    process_char u c prev = ([c], false) := by
  simp [process_char, h]

theorem process_char_N (u : UnicodeData) (c : Char) (prev : Bool)
    (h : u.get_major_category c = .N) :
    process_char u c prev = ([c], false) := by
  simp [process_char, h]

theorem process_char_S (u : UnicodeData) (c : Char) (prev : Bool)
    (h : u.get_major_category c = .S) :
    process_char u c prev = ([c], false) := by
  simp [process_char, h]

theorem process_char_P (u : UnicodeData) (c : Char) (prev : Bool)
    (h : u.get_major_category c = .P) :
    process_char u c prev = if prev then ([], true) else (['-'], true) := by
  simp [process_char, h]

theorem process_char_Z (u : UnicodeData) (c : Char) (prev : Bool)
    (h : u.get_major_category c = .Z) :
    process_char u c prev = if prev then ([], true) else (['-'], true) := by
  simp [process_char, h]

theorem process_char_C (u : UnicodeData) (c : Char) (prev : Bool)
    (h : u.get_major_category c = .C) :
    process_char u c prev = if prev then ([], true) else (['-'], true) := by
  simp [process_char, h]

theorem foldl_specStep_eq_slugifyRun (u : UnicodeData) :
    ∀ (cs : List Char) (acc : List Char) (prev : Bool),
      cs.foldl (slugifySpecStep u) (acc, prev) =
        (acc ++ (slugifyRun u prev cs).1, (slugifyRun u prev cs).2) := by
  intro cs
  induction cs with
  | nil => intro acc prev; simp [slugifyRun_nil]
  | cons c cs ih =>
    intro acc prev
    rw [List.foldl_cons, slugifyRun_cons]
    rcases h : u.get_major_category c with _ | _ | _ | _ | _ | _ | _
    · rw [process_char_L u c prev h]
      simp only [slugifySpecStep, h, ih, List.append_assoc]
    · rw [process_char_M u c prev h]
      simp only [slugifySpecStep, h, ih, List.append_assoc,
        List.singleton_append, List.cons_append]
    · rw [process_char_N u c prev h]
      simp only [slugifySpecStep, h, ih, List.append_assoc,
        List.singleton_append, List.cons_append]
    · rw [process_char_P u c prev h]
      cases prev with
      | true => simp only [slugifySpecStep, h, if_pos, ih, List.append_nil,
          if_true, List.nil_append]
      | false => simp only [slugifySpecStep, h, ih, List.append_assoc,
          if_false, List.singleton_append, List.cons_append, Bool.false_eq_true]
    · rw [process_char_S u c prev h]
      simp only [slugifySpecStep, h, ih, List.append_assoc,
        List.singleton_append, List.cons_append]
    · rw [process_char_Z u c prev h]
      cases prev with
      | true => simp only [slugifySpecStep, h, if_pos, ih, List.append_nil,
          if_true, List.nil_append]
      | false => simp only [slugifySpecStep, h, ih, List.append_assoc,
          if_false, List.singleton_append, List.cons_append, Bool.false_eq_true]
    · rw [process_char_C u c prev h]
      cases prev with
      | true => simp only [slugifySpecStep, h, if_pos, ih, List.append_nil,
          if_true, List.nil_append]
      | false => simp only [slugifySpecStep, h, ih, List.append_assoc,
          if_false, List.singleton_append, List.cons_append, Bool.false_eq_true]

/-- C1: for every Unicode data provider and every input string, the
implemented `slugify` (NFC, then the stateful `flat_map` rewrite, then
trailing-hyphen trimming) equals the reference definition of the spec,
written as a left fold over the normalized characters. -/
theorem slugifySpec_eq_slugify (u : UnicodeData) (s : List Char) :
    slugifySpec u s = slugify u s := by
  unfold slugifySpec slugify
  rw [foldl_specStep_eq_slugifyRun u (u.nfc s) [] true]
  simp

/-- C9: the concrete scenarios of the spec: the documented mixed punctuation,
control, whitespace and hyphen example collapses to "hello-world"; the empty
input gives the empty output; an input of punctuation only gives the empty
output. -/
theorem slugify_concrete_examples :
    slugify asciiUnicode ("/?&#Hello\n\r\n\r   --World!!!".toList) =
        "hello-world".toList ∧
    slugify asciiUnicode ("".toList) = [] ∧
    slugify asciiUnicode ("!!!".toList) = [] := by
  refine ⟨by decide, by decide, by decide⟩

/-- A character of major category M, N or S is not the hyphen, because the
hyphen's category is P. -/
theorem mns_ne_hyphen (u : UnicodeData) (c : Char)
    (hP : u.get_major_category '-' = .P)
    (h : u.get_major_category c = .M ∨ u.get_major_category c = .N ∨
      u.get_major_category c = .S) : c ≠ '-' := by
  intro hc
  rcases h with h | h | h <;> rw [hc, hP] at h <;>
    exact MajorCategory.noConfusion h

/-- Started with the flag set, the rewrite never emits a leading hyphen. -/
theorem head_run_ne_hyphen (u : UnicodeData)
    (hP : u.get_major_category '-' = .P) :
    ∀ cs : List Char, (∀ c ∈ cs, goodChar u c) →
      (slugifyRun u true cs).1.head? ≠ some '-' := by
  intro cs
  induction cs with
  | nil => intro _; simp [slugifyRun_nil]
  | cons c cs ih =>
    intro hg
    have hgc : goodChar u c := hg c (List.mem_cons_self c cs)
    have hgcs : ∀ x ∈ cs, goodChar u x := fun x hx => hg x (List.mem_cons_of_mem c hx)
    rw [slugifyRun_cons]
    rcases h : u.get_major_category c with _ | _ | _ | _ | _ | _ | _
    · rw [process_char_L u c true h]
      rcases hlow : u.to_lowercase c with _ | ⟨d, ds⟩
      · exact absurd hlow (hgc h).2
      · have hd : d ≠ '-' := by
          intro hd
          refine (hgc h).1 ?_
          rw [hlow, ← hd]
          exact List.mem_cons_self _ _
        simp [hd]
    · rw [process_char_M u c true h]
      have := mns_ne_hyphen u c hP (Or.inl h)
      simp [this]
    · rw [process_char_N u c true h]
      have := mns_ne_hyphen u c hP (Or.inr (Or.inl h))
      simp [this]
    · rw [process_char_P u c true h]
      simpa using ih hgcs
    · rw [process_char_S u c true h]
      have := mns_ne_hyphen u c hP (Or.inr (Or.inr h))
      simp [this]
    · rw [process_char_Z u c true h]
      simpa using ih hgcs
    · rw [process_char_C u c true h]
      simpa using ih hgcs

theorem chain_of_no_hyphen (l : List Char) (h : ∀ x ∈ l, x ≠ '-') :
    List.Chain' notBothHyphens l := by
  induction l with
  | nil => exact List.chain'_nil
  | cons a l ih =>
    refine List.chain'_cons'.mpr ⟨fun y _ => ?_, ih (fun x hx => h x (List.mem_cons_of_mem a hx))⟩
    intro ha
    exact absurd ha (h a (List.mem_cons_self a l))

/-- The rewrite never emits two adjacent hyphens, from any starting flag. -/
theorem chain_run (u : UnicodeData) (hP : u.get_major_category '-' = .P) :
    ∀ (cs : List Char) (prev : Bool), (∀ c ∈ cs, goodChar u c) →
      List.Chain' notBothHyphens (slugifyRun u prev cs).1 := by
  intro cs
  induction cs with
  | nil => intro prev _; simp [slugifyRun_nil]
  | cons c cs ih =>
    intro prev hg
    have hgc : goodChar u c := hg c (List.mem_cons_self c cs)
    have hgcs : ∀ x ∈ cs, goodChar u x := fun x hx => hg x (List.mem_cons_of_mem c hx)
    rw [slugifyRun_cons]
    rcases h : u.get_major_category c with _ | _ | _ | _ | _ | _ | _
    · rw [process_char_L u c prev h]
      refine List.chain'_append.mpr ⟨?_, ih false hgcs, ?_⟩
      · exact chain_of_no_hyphen _ (fun x hx hx' => (hgc h).1 (hx' ▸ hx))
      · intro x hx y _ hx'
        rw [Option.mem_def] at hx
        rw [hx'] at hx
        exact absurd (List.mem_of_getLast?_eq_some hx) (hgc h).1
    · rw [process_char_M u c prev h]
      refine List.chain'_cons'.mpr ⟨fun y _ => ?_, ih false hgcs⟩
      intro hc
      exact absurd hc (mns_ne_hyphen u c hP (Or.inl h))
    · rw [process_char_N u c prev h]
      refine List.chain'_cons'.mpr ⟨fun y _ => ?_, ih false hgcs⟩
      intro hc
      exact absurd hc (mns_ne_hyphen u c hP (Or.inr (Or.inl h)))
    · rw [process_char_P u c prev h]
      cases prev with
      | true => simpa using ih true hgcs
      | false =>
        simp only [if_false, Bool.false_eq_true, List.singleton_append]
        refine List.chain'_cons'.mpr ⟨fun y hy => ?_, ih true hgcs⟩
        intro _ hy'
        rw [Option.mem_def] at hy
        rw [hy'] at hy
        exact head_run_ne_hyphen u hP cs hgcs hy
    · rw [process_char_S u c prev h]
      refine List.chain'_cons'.mpr ⟨fun y _ => ?_, ih false hgcs⟩
      intro hc
      exact absurd hc (mns_ne_hyphen u c hP (Or.inr (Or.inr h)))
    · rw [process_char_Z u c prev h]
      cases prev with
      | true => simpa using ih true hgcs
      | false =>
        simp only [if_false, Bool.false_eq_true, List.singleton_append]
        refine List.chain'_cons'.mpr ⟨fun y hy => ?_, ih true hgcs⟩
        intro _ hy'
        rw [Option.mem_def] at hy
        rw [hy'] at hy
        exact head_run_ne_hyphen u hP cs hgcs hy
    · rw [process_char_C u c prev h]
      cases prev with
      | true => simpa using ih true hgcs
      | false =>
        simp only [if_false, Bool.false_eq_true, List.singleton_append]
        refine List.chain'_cons'.mpr ⟨fun y hy => ?_, ih true hgcs⟩
        intro _ hy'
        rw [Option.mem_def] at hy
        rw [hy'] at hy
        exact head_run_ne_hyphen u hP cs hgcs hy

theorem slugifyRun_cons_L (u : UnicodeData) (prev : Bool) (c : Char)
    (cs : List Char) (h : u.get_major_category c = .L) :
    slugifyRun u prev (c :: cs) =
      (u.to_lowercase c ++ (slugifyRun u false cs).1,
        (slugifyRun u false cs).2) := by
  rw [slugifyRun_cons, process_char_L u c prev h]

theorem slugifyRun_cons_mns (u : UnicodeData) (prev : Bool) (c : Char)
    (cs : List Char)
    (h : u.get_major_category c = .M ∨ u.get_major_category c = .N ∨
      u.get_major_category c = .S) :
    slugifyRun u prev (c :: cs) =
      (c :: (slugifyRun u false cs).1, (slugifyRun u false cs).2) := by
  rcases h with h | h | h
  · rw [slugifyRun_cons, process_char_M u c prev h]; rfl
  · rw [slugifyRun_cons, process_char_N u c prev h]; rfl
  · rw [slugifyRun_cons, process_char_S u c prev h]; rfl

theorem slugifyRun_cons_sep_true (u : UnicodeData) (c : Char) (cs : List Char)
    (h : u.get_major_category c = .P ∨ u.get_major_category c = .Z ∨
      u.get_major_category c = .C) :
    slugifyRun u true (c :: cs) = slugifyRun u true cs := by
  rcases h with h | h | h
  · rw [slugifyRun_cons, process_char_P u c true h]; rfl
  · rw [slugifyRun_cons, process_char_Z u c true h]; rfl
  · rw [slugifyRun_cons, process_char_C u c true h]; rfl

theorem slugifyRun_cons_sep_false (u : UnicodeData) (c : Char)
    (cs : List Char)
    (h : u.get_major_category c = .P ∨ u.get_major_category c = .Z ∨
      u.get_major_category c = .C) :
    slugifyRun u false (c :: cs) =
      ('-' :: (slugifyRun u true cs).1, (slugifyRun u true cs).2) := by
  rcases h with h | h | h
  · rw [slugifyRun_cons, process_char_P u c false h]; rfl
  · rw [slugifyRun_cons, process_char_Z u c false h]; rfl
  · rw [slugifyRun_cons, process_char_C u c false h]; rfl

theorem prefix_trimEnd (l : List Char) : trimEndHyphens l <+: l :=
  List.rdropWhile_prefix _ _

theorem trimEnd_getLast_ne (l : List Char) :
    (trimEndHyphens l).getLast? ≠ some '-' := by
  unfold trimEndHyphens
  intro h
  have hne : l.rdropWhile (· == '-') ≠ [] := by
    intro h0
    rw [h0] at h
    exact Option.noConfusion h
  have h2 := List.rdropWhile_last_not (· == '-') l hne
  rw [List.getLast?_eq_getLast _ hne] at h
  rw [Option.some.inj h] at h2
  simp at h2

theorem trimEnd_eq_self {l : List Char} (h : l.getLast? ≠ some '-') :
    trimEndHyphens l = l := by
  unfold trimEndHyphens
  rw [List.rdropWhile_eq_self_iff]
  intro hl
  have hne : l.getLast hl ≠ '-' := by
    intro he
    exact h (by rw [List.getLast?_eq_getLast l hl, he])
  simpa using hne

theorem mem_trimEnd {l : List Char} {x : Char} (h : x ∈ trimEndHyphens l) :
    x ∈ l :=
  List.IsPrefix.subset (prefix_trimEnd l) h

theorem head_trimEnd_ne {l : List Char} (h : l.head? ≠ some '-') :
    (trimEndHyphens l).head? ≠ some '-' := by
  rcases hpre : trimEndHyphens l with _ | ⟨x, t⟩
  · simp
  · rcases prefix_trimEnd l with ⟨r, hr⟩
    rw [hpre] at hr
    rw [← hr] at h
    simpa using h

/-- C2: for every input string, the output of `slugify` neither starts nor
ends with a hyphen.  The hypotheses are the Unicode-database facts the
property rests on: the hyphen's major category is P, and the full lowercase
mapping of every normalized input character is nonempty and hyphen-free. -/
theorem slugify_no_boundary_hyphen (u : UnicodeData) (s : List Char)
    (hP : u.get_major_category '-' = .P)
    (hg : ∀ c ∈ u.nfc s, goodChar u c) :
    (slugify u s).head? ≠ some '-' ∧ (slugify u s).getLast? ≠ some '-' :=
  ⟨head_trimEnd_ne (head_run_ne_hyphen u hP (u.nfc s) hg),
    trimEnd_getLast_ne _⟩

theorem slugify_no_boundary_hyphen_witness :
    (slugify asciiUnicode ("  Hello, World! ".toList)).head? ≠ some '-' ∧
    (slugify asciiUnicode ("  Hello, World! ".toList)).getLast? ≠ some '-' :=
  slugify_no_boundary_hyphen asciiUnicode ("  Hello, World! ".toList)
    (by decide) (by decide)

/-- C3: for every input string, the output of `slugify` contains no substring
of two or more consecutive hyphens (formalized as: the two-hyphen string is
not an infix of the output; any longer hyphen run would contain it).  Same
Unicode-database hypotheses as the boundary property. -/
theorem slugify_no_double_hyphen (u : UnicodeData) (s : List Char)
    (hP : u.get_major_category '-' = .P)
    (hg : ∀ c ∈ u.nfc s, goodChar u c) :
    ¬ ['-', '-'] <:+: slugify u s := by
  intro hinf
  have hchain : List.Chain' notBothHyphens (slugify u s) :=
    List.Chain'.prefix (chain_run u hP (u.nfc s) true hg) (prefix_trimEnd _)
  have h2 : List.Chain' notBothHyphens ['-', '-'] :=
    List.Chain'.infix hchain hinf
  rcases List.chain'_cons'.mp h2 with ⟨hrel, _⟩
  exact hrel '-' (Option.mem_def.mpr rfl) rfl rfl

theorem slugify_no_double_hyphen_witness :
    ¬ ['-', '-'] <:+: slugify asciiUnicode ("a -- b!! c".toList) :=
  slugify_no_double_hyphen asciiUnicode ("a -- b!! c".toList)
    (by decide) (by decide)

theorem getLast_append_block (low rest1 : List Char) (_hne : low ≠ [])
    (hnh : '-' ∉ low) :
    ((low ++ rest1).getLast? = some '-') ↔ rest1.getLast? = some '-' := by
  rw [List.getLast?_append]
  rcases hr : rest1.getLast? with _ | x
  · rw [Option.none_or]
    constructor
    · intro hlow
      exact absurd (List.mem_of_getLast?_eq_some hlow) hnh
    · intro hx
      exact Option.noConfusion hx
  · rw [Option.or_some]

theorem flag_inv_block (prev : Bool) (low : List Char)
    (rest : List Char × Bool) (hne : low ≠ []) (hnh : '-' ∉ low)
    (ihf : rest.2 = true ↔ rest.1.getLast? = some '-') :
    (rest.2 = true ↔ ((low ++ rest.1).getLast? = some '-' ∨
      (low ++ rest.1 = [] ∧ prev = true))) := by
  have hnil : low ++ rest.1 ≠ [] := fun h0 => hne (List.append_eq_nil.mp h0).1
  rw [getLast_append_block low rest.1 hne hnh, eq_false hnil, false_and,
    or_false]
  exact ihf

/-- The carried-state invariant (spec section 3): starting from any flag
value, after the rewrite the flag is true exactly when the last emitted
character is a hyphen, or when nothing was emitted and the flag was already
true on entry. -/
theorem flag_run_invariant (u : UnicodeData)
    (hP : u.get_major_category '-' = .P) :
    ∀ (cs : List Char) (prev : Bool), (∀ c ∈ cs, goodChar u c) →
      ((slugifyRun u prev cs).2 = true ↔
        ((slugifyRun u prev cs).1.getLast? = some '-' ∨
          ((slugifyRun u prev cs).1 = [] ∧ prev = true))) := by
  intro cs
  induction cs with
  | nil =>
    intro prev _
    simp [slugifyRun_nil]
  | cons c cs ih =>
    intro prev hg
    have hgc : goodChar u c := hg c (List.mem_cons_self c cs)
    have hgcs : ∀ x ∈ cs, goodChar u x :=
      fun x hx => hg x (List.mem_cons_of_mem c hx)
    have ihf : (slugifyRun u false cs).2 = true ↔
        (slugifyRun u false cs).1.getLast? = some '-' := by
      have := ih false hgcs
      simpa using this
    rcases h : u.get_major_category c with _ | _ | _ | _ | _ | _ | _
    · rw [slugifyRun_cons_L u prev c cs h]
      exact flag_inv_block prev (u.to_lowercase c) (slugifyRun u false cs)
        (hgc h).2 (hgc h).1 ihf
    · rw [slugifyRun_cons_mns u prev c cs (Or.inl h)]
      refine flag_inv_block prev [c] (slugifyRun u false cs) (by simp) ?_ ihf
      simp only [List.mem_singleton]
      exact fun hc => mns_ne_hyphen u c hP (Or.inl h) hc.symm
    · rw [slugifyRun_cons_mns u prev c cs (Or.inr (Or.inl h))]
      refine flag_inv_block prev [c] (slugifyRun u false cs) (by simp) ?_ ihf
      simp only [List.mem_singleton]
      exact fun hc => mns_ne_hyphen u c hP (Or.inr (Or.inl h)) hc.symm
    · cases prev with
      | true =>
        rw [slugifyRun_cons_sep_true u c cs (Or.inl h)]
        exact ih true hgcs
      | false =>
        rw [slugifyRun_cons_sep_false u c cs (Or.inl h)]
        have iht := ih true hgcs
        rcases hr : (slugifyRun u true cs).1.getLast? with _ | x
        · have hnil : (slugifyRun u true cs).1 = [] :=
            List.getLast?_eq_none_iff.mp hr
          rw [hr] at iht
          simp only [hnil, and_true, List.getLast?_cons, hr] at iht ⊢
          simp [iht]
        · have hnil : (slugifyRun u true cs).1 ≠ [] := by
            intro h0
            rw [h0] at hr
            exact Option.noConfusion hr
          rw [hr] at iht
          rw [eq_false hnil, false_and, or_false] at iht
          rw [← List.singleton_append, List.getLast?_append, hr,
            Option.or_some]
          simp only [List.cons_append, List.nil_append]
          rw [eq_false (List.cons_ne_nil '-' (slugifyRun u true cs).1),
            false_and, or_false]
          exact iht
    · rw [slugifyRun_cons_mns u prev c cs (Or.inr (Or.inr h))]
      refine flag_inv_block prev [c] (slugifyRun u false cs) (by simp) ?_ ihf
      simp only [List.mem_singleton]
      exact fun hc => mns_ne_hyphen u c hP (Or.inr (Or.inr h)) hc.symm
    · cases prev with
      | true =>
        rw [slugifyRun_cons_sep_true u c cs (Or.inr (Or.inl h))]
        exact ih true hgcs
      | false =>
        rw [slugifyRun_cons_sep_false u c cs (Or.inr (Or.inl h))]
        have iht := ih true hgcs
        rcases hr : (slugifyRun u true cs).1.getLast? with _ | x
        · have hnil : (slugifyRun u true cs).1 = [] :=
            List.getLast?_eq_none_iff.mp hr
          rw [hr] at iht
          simp only [hnil, and_true, List.getLast?_cons, hr] at iht ⊢
          simp [iht]
        · have hnil : (slugifyRun u true cs).1 ≠ [] := by
            intro h0
            rw [h0] at hr
            exact Option.noConfusion hr
          rw [hr] at iht
          rw [eq_false hnil, false_and, or_false] at iht
          rw [← List.singleton_append, List.getLast?_append, hr,
            Option.or_some]
          simp only [List.cons_append, List.nil_append]
          rw [eq_false (List.cons_ne_nil '-' (slugifyRun u true cs).1),
            false_and, or_false]
          exact iht
    · cases prev with
      | true =>
        rw [slugifyRun_cons_sep_true u c cs (Or.inr (Or.inr h))]
        exact ih true hgcs
      | false =>
        rw [slugifyRun_cons_sep_false u c cs (Or.inr (Or.inr h))]
        have iht := ih true hgcs
        rcases hr : (slugifyRun u true cs).1.getLast? with _ | x
        · have hnil : (slugifyRun u true cs).1 = [] :=
            List.getLast?_eq_none_iff.mp hr
          rw [hr] at iht
          simp only [hnil, and_true, List.getLast?_cons, hr] at iht ⊢
          simp [iht]
        · have hnil : (slugifyRun u true cs).1 ≠ [] := by
            intro h0
            rw [h0] at hr
            exact Option.noConfusion hr
          rw [hr] at iht
          rw [eq_false hnil, false_and, or_false] at iht
          rw [← List.singleton_append, List.getLast?_append, hr,
            Option.or_some]
          simp only [List.cons_append, List.nil_append]
          rw [eq_false (List.cons_ne_nil '-' (slugifyRun u true cs).1),
            false_and, or_false]
          exact iht

/-- C7: the carried boolean `prev_hyphen` is an invariant of every step of
the left-to-right rewrite: after processing any prefix of the normalized
input (the flag starting `true`), it is true exactly when the most recently
emitted output character (if any) is a hyphen, or when no character has been
emitted yet.  Hypotheses as for the boundary property: the hyphen's category
is P, and letters of the normalized input have nonempty, hyphen-free
lowercase mappings. -/
theorem prev_hyphen_invariant (u : UnicodeData) (s : List Char)
    (hP : u.get_major_category '-' = .P)
    (hg : ∀ c ∈ u.nfc s, goodChar u c)
    (p : List Char) (hp : p <+: u.nfc s) :
    ((slugifyRun u true p).2 = true ↔
      ((slugifyRun u true p).1.getLast? = some '-' ∨
        (slugifyRun u true p).1 = [])) := by
  have hgp : ∀ c ∈ p, goodChar u c :=
    fun c hc => hg c (List.IsPrefix.subset hp hc)
  have h := flag_run_invariant u hP p true hgp
  simpa using h

theorem prev_hyphen_invariant_witness :
    ((slugifyRun asciiUnicode true ("Ab ".toList)).2 = true ↔
      ((slugifyRun asciiUnicode true ("Ab ".toList)).1.getLast? = some '-' ∨
        (slugifyRun asciiUnicode true ("Ab ".toList)).1 = [])) :=
  prev_hyphen_invariant asciiUnicode ("Ab cd".toList) (by decide) (by decide)
    ("Ab ".toList) ⟨"cd".toList, by decide⟩

/-- C5: slugify is invariant under canonical equivalence of the input: for
every input t, slugify(NFC(t)) = slugify(t) — in particular a base letter
followed by a combining accent mark and the precomposed accented letter give
identical output.  The hypothesis is NFC idempotence at t, a guarantee of
Unicode normalization. -/
theorem slugify_nfc_invariant (u : UnicodeData) (t : List Char)
    (hni : u.nfc (u.nfc t) = u.nfc t) :
    slugify u (u.nfc t) = slugify u t := by
  unfold slugify
  rw [hni]

theorem slugify_nfc_invariant_witness :
    slugify asciiUnicode (asciiUnicode.nfc ("Hello World".toList)) =
      slugify asciiUnicode ("Hello World".toList) :=
  slugify_nfc_invariant asciiUnicode ("Hello World".toList) (by decide)

/-- C6: the public surface includes `slugify_with_options(text, options)`
whose options argument (fields `minimum_length` defaulting to 3 and
`maximum_length` defaulting to 30) is a no-op pass-through: for every text
and every options value it returns `slugify` of the text, the length bounds
being declared but never consumed. -/
theorem slugify_with_options_noop :
    (∀ (u : UnicodeData) (t : List Char) (o : SlugOptions),
        slugify_with_options u t o = slugify u t) ∧
      ({} : SlugOptions).minimum_length = 3 ∧
      ({} : SlugOptions).maximum_length = 30 :=
  ⟨fun _ _ _ => rfl, rfl, rfl⟩

theorem trimEnd_ne_nil {l : List Char} (h : ∃ d ∈ l, d ≠ '-') :
    trimEndHyphens l ≠ [] := by
  unfold trimEndHyphens
  rw [Ne, List.rdropWhile_eq_nil_iff]
  intro hall
  rcases h with ⟨d, hd, hne⟩
  exact hne (by simpa using hall d hd)

/-- A Letter, Mark, Number or Symbol in the input stream contributes at least
one non-hyphen character to the emitted stream. -/
theorem run_has_nonhyphen (u : UnicodeData)
    (hP : u.get_major_category '-' = .P) :
    ∀ (cs : List Char) (prev : Bool), (∀ c ∈ cs, goodChar u c) →
      (∃ c ∈ cs, u.get_major_category c = .L ∨ u.get_major_category c = .M ∨
        u.get_major_category c = .N ∨ u.get_major_category c = .S) →
      ∃ d ∈ (slugifyRun u prev cs).1, d ≠ '-' := by
  intro cs
  induction cs with
  | nil =>
    intro prev _ hex
    rcases hex with ⟨c, hc, _⟩
    exact absurd hc (List.not_mem_nil c)
  | cons c cs ih =>
    intro prev hg hex
    have hgc : goodChar u c := hg c (List.mem_cons_self c cs)
    have hgcs : ∀ x ∈ cs, goodChar u x :=
      fun x hx => hg x (List.mem_cons_of_mem c hx)
    rcases h : u.get_major_category c with _ | _ | _ | _ | _ | _ | _
    · rw [slugifyRun_cons_L u prev c cs h]
      rcases hlow : u.to_lowercase c with _ | ⟨d, ds⟩
      · exact absurd hlow (hgc h).2
      · refine ⟨d, List.mem_append_left _ (List.mem_cons_self d ds), ?_⟩
        intro hd
        refine (hgc h).1 ?_
        rw [hlow, ← hd]
        exact List.mem_cons_self _ _
    · rw [slugifyRun_cons_mns u prev c cs (Or.inl h)]
      exact ⟨c, List.mem_cons_self _ _, mns_ne_hyphen u c hP (Or.inl h)⟩
    · rw [slugifyRun_cons_mns u prev c cs (Or.inr (Or.inl h))]
      exact ⟨c, List.mem_cons_self _ _,
        mns_ne_hyphen u c hP (Or.inr (Or.inl h))⟩
    · have hex' : ∃ x ∈ cs, u.get_major_category x = .L ∨
          u.get_major_category x = .M ∨ u.get_major_category x = .N ∨
          u.get_major_category x = .S := by
        rcases hex with ⟨x, hx, hcat⟩
        rcases List.mem_cons.mp hx with hx0 | hx0
        · rw [hx0, h] at hcat
          rcases hcat with hc | hc | hc | hc <;> exact absurd hc (by decide)
        · exact ⟨x, hx0, hcat⟩
      cases prev with
      | true =>
        rw [slugifyRun_cons_sep_true u c cs (Or.inl h)]
        exact ih true hgcs hex'
      | false =>
        rw [slugifyRun_cons_sep_false u c cs (Or.inl h)]
        rcases ih true hgcs hex' with ⟨d, hd, hdne⟩
        exact ⟨d, List.mem_cons_of_mem _ hd, hdne⟩
    · rw [slugifyRun_cons_mns u prev c cs (Or.inr (Or.inr h))]
      exact ⟨c, List.mem_cons_self _ _,
        mns_ne_hyphen u c hP (Or.inr (Or.inr h))⟩
    · have hex' : ∃ x ∈ cs, u.get_major_category x = .L ∨
          u.get_major_category x = .M ∨ u.get_major_category x = .N ∨
          u.get_major_category x = .S := by
        rcases hex with ⟨x, hx, hcat⟩
        rcases List.mem_cons.mp hx with hx0 | hx0
        · rw [hx0, h] at hcat
          rcases hcat with hc | hc | hc | hc <;> exact absurd hc (by decide)
        · exact ⟨x, hx0, hcat⟩
      cases prev with
      | true =>
        rw [slugifyRun_cons_sep_true u c cs (Or.inr (Or.inl h))]
        exact ih true hgcs hex'
      | false =>
        rw [slugifyRun_cons_sep_false u c cs (Or.inr (Or.inl h))]
        rcases ih true hgcs hex' with ⟨d, hd, hdne⟩
        exact ⟨d, List.mem_cons_of_mem _ hd, hdne⟩
    · have hex' : ∃ x ∈ cs, u.get_major_category x = .L ∨
          u.get_major_category x = .M ∨ u.get_major_category x = .N ∨
          u.get_major_category x = .S := by
        rcases hex with ⟨x, hx, hcat⟩
        rcases List.mem_cons.mp hx with hx0 | hx0
        · rw [hx0, h] at hcat
          rcases hcat with hc | hc | hc | hc <;> exact absurd hc (by decide)
        · exact ⟨x, hx0, hcat⟩
      cases prev with
      | true =>
        rw [slugifyRun_cons_sep_true u c cs (Or.inr (Or.inr h))]
        exact ih true hgcs hex'
      | false =>
        rw [slugifyRun_cons_sep_false u c cs (Or.inr (Or.inr h))]
        rcases ih true hgcs hex' with ⟨d, hd, hdne⟩
        exact ⟨d, List.mem_cons_of_mem _ hd, hdne⟩

/-- C10: non-empty output guarantee: whenever the NFC form of the input
contains at least one character of major category Letter, Mark, Number or
Symbol, `slugify` returns a non-empty string.  The hypotheses record that in
this implementation a letter's lowercase mapping is never empty (and never a
hyphen), and that the hyphen's category is P. -/
theorem slugify_nonempty_output (u : UnicodeData) (s : List Char)
    (hP : u.get_major_category '-' = .P)
    (hg : ∀ c ∈ u.nfc s, goodChar u c)
    (hex : ∃ c ∈ u.nfc s, u.get_major_category c = .L ∨
      u.get_major_category c = .M ∨ u.get_major_category c = .N ∨
      u.get_major_category c = .S) :
    slugify u s ≠ [] :=
  trimEnd_ne_nil (run_has_nonhyphen u hP (u.nfc s) true hg hex)

theorem slugify_nonempty_output_witness :
    slugify asciiUnicode ("  7% off!".toList) ≠ [] :=
  slugify_nonempty_output asciiUnicode ("  7% off!".toList)
    (by decide) (by decide) (by decide)

/-- On an all-Letter stream the rewrite emits exactly the concatenation of
the lowercase mappings, from any starting flag. -/
theorem run_letters (u : UnicodeData) :
    ∀ (l : List Char) (prev : Bool),
      (∀ c ∈ l, u.get_major_category c = .L) →
      (slugifyRun u prev l).1 = l.flatMap u.to_lowercase := by
  intro l
  induction l with
  | nil => intro prev _; simp [slugifyRun_nil]
  | cons c cs ih =>
    intro prev hl
    rw [slugifyRun_cons_L u prev c cs (hl c (List.mem_cons_self c cs))]
    rw [List.flatMap_cons,
      ih false (fun x hx => hl x (List.mem_cons_of_mem c hx))]

theorem flatMap_map_latinUpper (u : UnicodeData) :
    ∀ s : List Char,
      (∀ c ∈ s, u.to_lowercase (latinUpper c) = u.to_lowercase c) →
      (s.map latinUpper).flatMap u.to_lowercase = s.flatMap u.to_lowercase := by
  intro s
  induction s with
  | nil => intro _; rfl
  | cons c cs ih =>
    intro h
    rw [List.map_cons, List.flatMap_cons, List.flatMap_cons,
      h c (List.mem_cons_self c cs),
      ih (fun x hx => h x (List.mem_cons_of_mem c hx))]

/-- C8: case-insensitive convergence: for a string of basic Latin letters,
slugifying the uppercased string (the character-wise basic Latin uppercase
map) gives the same output as slugifying the string itself.  The hypotheses
record the Unicode-database facts on the letters involved: NFC fixes both
ASCII strings, both cases are category L, and the lowercase mapping of the
uppercased letter agrees with that of the letter. -/
theorem slugify_uppercase_convergence (u : UnicodeData) (s : List Char)
    (_hlatin : ∀ c ∈ s, basicLatinLetter c)
    (hn1 : u.nfc s = s)
    (hn2 : u.nfc (s.map latinUpper) = s.map latinUpper)
    (hcat : ∀ c ∈ s, u.get_major_category c = .L ∧
      u.get_major_category (latinUpper c) = .L)
    (hlow : ∀ c ∈ s, u.to_lowercase (latinUpper c) = u.to_lowercase c) :
    slugify u (s.map latinUpper) = slugify u s := by
  unfold slugify
  rw [hn1, hn2]
  rw [run_letters u s true (fun c hc => (hcat c hc).1)]
  rw [run_letters u (s.map latinUpper) true (fun c hc => by
    rcases List.mem_map.mp hc with ⟨a, ha, he⟩
    rw [← he]
    exact (hcat a ha).2)]
  rw [flatMap_map_latinUpper u s hlow]

theorem slugify_uppercase_convergence_witness :
    slugify asciiUnicode (("abcXYZ".toList).map latinUpper) =
      slugify asciiUnicode ("abcXYZ".toList) :=
  slugify_uppercase_convergence asciiUnicode ("abcXYZ".toList)
    (by decide) (by decide) (by decide) (by decide) (by decide)

theorem fixedOut_of_mns (u : UnicodeData) (c : Char)
    (h : u.get_major_category c = .M ∨ u.get_major_category c = .N ∨
      u.get_major_category c = .S) : fixedOut u c := by
  rcases h with h | h | h <;>
    exact Or.inr ⟨by rw [h]; decide, by rw [h]; decide, by rw [h]; decide,
      fun he => absurd (h.symm.trans he) (by decide)⟩

/-- Every character the rewrite emits is of the reproducible shape: a
hyphen, or a non-separator character that is a letter only when fixed by the
lowercase mapping — provided the lowercase expansions of the input's letters
already are of that shape. -/
theorem run_chars_fixedOut (u : UnicodeData) :
    ∀ (cs : List Char) (prev : Bool),
      (∀ c ∈ cs, u.get_major_category c = .L →
        ∀ d ∈ u.to_lowercase c, fixedOut u d) →
      ∀ d ∈ (slugifyRun u prev cs).1, fixedOut u d := by
  intro cs
  induction cs with
  | nil =>
    intro prev _ d hd
    rw [slugifyRun_nil] at hd
    exact absurd hd (List.not_mem_nil d)
  | cons c cs ih =>
    intro prev hfix d hd
    have hfc := hfix c (List.mem_cons_self c cs)
    have hfcs : ∀ x ∈ cs, u.get_major_category x = .L →
        ∀ e ∈ u.to_lowercase x, fixedOut u e :=
      fun x hx => hfix x (List.mem_cons_of_mem c hx)
    rcases h : u.get_major_category c with _ | _ | _ | _ | _ | _ | _
    · rw [slugifyRun_cons_L u prev c cs h] at hd
      rcases List.mem_append.mp hd with hd1 | hd2
      · exact hfc h d hd1
      · exact ih false hfcs d hd2
    · rw [slugifyRun_cons_mns u prev c cs (Or.inl h)] at hd
      rcases List.mem_cons.mp hd with hd0 | hd2
      · rw [hd0]; exact fixedOut_of_mns u c (Or.inl h)
      · exact ih false hfcs d hd2
    · rw [slugifyRun_cons_mns u prev c cs (Or.inr (Or.inl h))] at hd
      rcases List.mem_cons.mp hd with hd0 | hd2
      · rw [hd0]; exact fixedOut_of_mns u c (Or.inr (Or.inl h))
      · exact ih false hfcs d hd2
    · cases prev with
      | true =>
        rw [slugifyRun_cons_sep_true u c cs (Or.inl h)] at hd
        exact ih true hfcs d hd
      | false =>
        rw [slugifyRun_cons_sep_false u c cs (Or.inl h)] at hd
        rcases List.mem_cons.mp hd with hd0 | hd2
        · exact Or.inl hd0
        · exact ih true hfcs d hd2
    · rw [slugifyRun_cons_mns u prev c cs (Or.inr (Or.inr h))] at hd
      rcases List.mem_cons.mp hd with hd0 | hd2
      · rw [hd0]; exact fixedOut_of_mns u c (Or.inr (Or.inr h))
      · exact ih false hfcs d hd2
    · cases prev with
      | true =>
        rw [slugifyRun_cons_sep_true u c cs (Or.inr (Or.inl h))] at hd
        exact ih true hfcs d hd
      | false =>
        rw [slugifyRun_cons_sep_false u c cs (Or.inr (Or.inl h))] at hd
        rcases List.mem_cons.mp hd with hd0 | hd2
        · exact Or.inl hd0
        · exact ih true hfcs d hd2
    · cases prev with
      | true =>
        rw [slugifyRun_cons_sep_true u c cs (Or.inr (Or.inr h))] at hd
        exact ih true hfcs d hd
      | false =>
        rw [slugifyRun_cons_sep_false u c cs (Or.inr (Or.inr h))] at hd
        rcases List.mem_cons.mp hd with hd0 | hd2
        · exact Or.inl hd0
        · exact ih true hfcs d hd2

/-- The rewrite reproduces a string of reproducible characters as long as it
has no adjacent hyphen pair and no leading hyphen (when the flag starts
true): the slug shape is a fixed point of the scanning pass. -/
theorem repro_run (u : UnicodeData) (hP : u.get_major_category '-' = .P) :
    ∀ (l : List Char) (prev : Bool),
      (∀ d ∈ l, fixedOut u d) →
      List.Chain' notBothHyphens l →
      (prev = true → l.head? ≠ some '-') →
      (slugifyRun u prev l).1 = l := by
  intro l
  induction l with
  | nil =>
    intro prev _ _ _
    rw [slugifyRun_nil]
  | cons d rest ih =>
    intro prev hall hch hhead
    have hallr : ∀ x ∈ rest, fixedOut u x :=
      fun x hx => hall x (List.mem_cons_of_mem d hx)
    have hchr : List.Chain' notBothHyphens rest := (List.chain'_cons'.mp hch).2
    by_cases hd : d = '-'
    · cases prev with
      | true =>
        rw [hd] at hhead
        exact absurd rfl (hhead rfl)
      | false =>
        rw [hd]
        rw [slugifyRun_cons_sep_false u '-' rest (Or.inl hP)]
        have hh : rest.head? ≠ some '-' := by
          intro he
          rw [hd] at hch
          exact (List.chain'_cons'.mp hch).1 '-' (Option.mem_def.mpr he) rfl rfl
        rw [ih true hallr hchr (fun _ => hh)]
    · rcases hall d (List.mem_cons_self d rest) with hdh | ⟨hp, hz, hc, hlfix⟩
      · exact absurd hdh hd
      · rcases h : u.get_major_category d with _ | _ | _ | _ | _ | _ | _
        · rw [slugifyRun_cons_L u prev d rest h, hlfix h,
            ih false hallr hchr (fun he => Bool.noConfusion he)]
          rfl
        · rw [slugifyRun_cons_mns u prev d rest (Or.inl h),
            ih false hallr hchr (fun he => Bool.noConfusion he)]
        · rw [slugifyRun_cons_mns u prev d rest (Or.inr (Or.inl h)),
            ih false hallr hchr (fun he => Bool.noConfusion he)]
        · exact absurd h hp
        · rw [slugifyRun_cons_mns u prev d rest (Or.inr (Or.inr h)),
            ih false hallr hchr (fun he => Bool.noConfusion he)]
        · exact absurd h hz
        · exact absurd h hc

/-- C4 counterexample: slugify is not idempotent as stated.  On the fragment
of the real Unicode data around J, j, the combining caron U+030C and ǰ
(U+01F0) — NFC composes j followed by the caron into U+01F0, while J followed
by the caron has no precomposed form — the input J + U+030C slugifies to
j + U+030C, and slugifying that output re-normalizes it to the single
character U+01F0, a different string. -/
theorem slugify_not_idempotent_counterexample :
    slugify caronUnicode ['J', '\u030C'] = ['j', '\u030C'] ∧
    slugify caronUnicode (slugify caronUnicode ['J', '\u030C']) =
      ['\u01F0'] ∧
    slugify caronUnicode (slugify caronUnicode ['J', '\u030C']) ≠
      slugify caronUnicode ['J', '\u030C'] := by
  refine ⟨by decide, by decide, by decide⟩

/-- C4 (amended): slugify is idempotent exactly on the inputs whose output
NFC leaves fixed: if NFC fixes slugify(t) — the restriction the
counterexample forces, since the second pass first re-normalizes the first
pass's output — then slugify(slugify(t)) = slugify(t).  The remaining
hypotheses are the Unicode-database facts the spec's rationale appeals to
(output characters change no further): the hyphen's category is P, and the
normalized input's letters have nonempty, hyphen-free lowercase mappings
whose characters are not of category P, Z or C and are themselves
lowercase-fixed when letters. -/
theorem slugify_idempotent (u : UnicodeData) (s : List Char)
    (hP : u.get_major_category '-' = .P)
    (hg : ∀ c ∈ u.nfc s, goodChar u c)
    (hfix : ∀ c ∈ u.nfc s, u.get_major_category c = .L →
      ∀ d ∈ u.to_lowercase c, fixedOut u d)
    (hnfc : u.nfc (slugify u s) = slugify u s) :
    slugify u (slugify u s) = slugify u s := by
  have hall : ∀ d ∈ slugify u s, fixedOut u d := fun d hd =>
    run_chars_fixedOut u (u.nfc s) true hfix d (mem_trimEnd hd)
  have hch : List.Chain' notBothHyphens (slugify u s) :=
    List.Chain'.prefix (chain_run u hP (u.nfc s) true hg) (prefix_trimEnd _)
  have hhead : (slugify u s).head? ≠ some '-' :=
    head_trimEnd_ne (head_run_ne_hyphen u hP (u.nfc s) hg)
  have hlast : (slugify u s).getLast? ≠ some '-' := trimEnd_getLast_ne _
  show trimEndHyphens (slugifyRun u true (u.nfc (slugify u s))).1 = slugify u s
  rw [hnfc, repro_run u hP (slugify u s) true hall hch (fun _ => hhead)]
  exact trimEnd_eq_self hlast

theorem slugify_idempotent_witness :
    slugify asciiUnicode
        (slugify asciiUnicode ("  Hello-- World!".toList)) =
      slugify asciiUnicode ("  Hello-- World!".toList) :=
  slugify_idempotent asciiUnicode ("  Hello-- World!".toList)
    (by decide) (by decide) (by decide) (by decide)
